import Mathlib

/-!
Shallow embedding of the shard-rebalance planner from es_rebalance/rebalance.py.

Python integers become Nat, Python float arithmetic on ratios is modelled with
exact rationals, object identity of nodes is modelled by the node name (the
source builds nodes from a dict keyed on the unique node name), and the Python
generators find_big_shards / find_small_shards are modelled as the lists they
yield (they read planner state that is not mutated while they run).
statistics.pvariance raises StatisticsError on an empty data sequence; this is
modelled with Option, none standing for the raised error. plan_step likewise
returns Option (Bool × Plan): none models the propagated error, and the pair
holds the returned Bool together with the (possibly) mutated planner state.
-/

attribute [local semireducible] Rat.mul Rat.inv Rat.add Rat.sub

namespace ESRebalance

/-- Shard namedtuple from the source: index, shard, prirep, store, can_move. -/
structure Shard where
  index : String
  shard : Nat
  prirep : String
  store : Nat
  can_move : Bool
deriving DecidableEq

/-- NodeInfo from the source: name, ip, rack, capacity are immutable, shards
and used are mutated during planning. -/
structure NodeInfo where
  name : String
  ip : String
  rack : String
  capacity : Nat
  shards : List Shard
  used : Nat
deriving DecidableEq

/-- Python list.sort with key store and reverse True: stable descending sort,
modelled as insertion sort (stable, keeps earlier elements before tied later
ones, and keys in non-increasing order). -/
def sortShardsDesc (l : List Shard) : List Shard :=
  l.insertionSort (fun a b => b.store ≤ a.store)

/-- NodeInfo.fraction_used: used / capacity. -/
def NodeInfo.fraction_used (n : NodeInfo) : ℚ :=
  (n.used : ℚ) / (n.capacity : ℚ)

/-- NodeInfo.resort: sorts the shards list by size and recomputes used. -/
def NodeInfo.resort (n : NodeInfo) : NodeInfo :=
  let sorted := sortShardsDesc n.shards
  { n with shards := sorted, used := (sorted.map Shard.store).sum }

/-- One entry of Plan.operations: a move command for the reroute API. -/
structure MoveOp where
  index : String
  shard : Nat
  from_node : String
  to_node : String
deriving DecidableEq

/-- Plan state: thresholds, pending operations, nodes sorted by usage,
and the set of already exchanged shard identities. -/
structure Plan where
  shard_fraction_threshold : ℚ
  node_fraction_threshold : ℚ
  operations : List MoveOp
  nodes_by_size : List NodeInfo
  moved_shards : List (String × Nat)
deriving DecidableEq

/-- Sort of the node list by used / capacity, largest first (stable, as
Python list.sort with reverse True), modelled as insertion sort. -/
def sortNodesBySize (l : List NodeInfo) : List NodeInfo :=
  l.insertionSort (fun a b => b.fraction_used ≤ a.fraction_used)

namespace Plan

/-- Plan._sort: resort every node, then sort nodes_by_size by
used / capacity, largest first. -/
def sortNodes (p : Plan) : Plan :=
  { p with nodes_by_size := sortNodesBySize (p.nodes_by_size.map NodeInfo.resort) }

/-- Shard filter shared by both candidate generators: skip shards whose
identity is in moved_shards and shards that cannot move. -/
def shardEligible (p : Plan) (s : Shard) : Bool :=
  !(decide ((s.index, s.shard) ∈ p.moved_shards)) && s.can_move

/-- Plan.find_big_shards: scan nodes largest-usage-first, break at the first
node whose usage is within node_fraction_threshold of the least loaded node
(the last of nodes_by_size), and yield each eligible shard of the scanned
nodes, in shard-list order (largest first once sorted). -/
def find_big_shards (p : Plan) : List (NodeInfo × Shard) :=
  match p.nodes_by_size.getLast? with
  | none => []
  | some last =>
    (p.nodes_by_size.takeWhile
        (fun n => !(decide (|last.fraction_used - n.fraction_used| <
          p.node_fraction_threshold)))).flatMap
      (fun n => (n.shards.filter p.shardEligible).map (fun s => (n, s)))

/-- Plan.find_small_shards: scan nodes smallest-usage-first (reversed list),
break on reaching the big node, and yield each eligible shard in reversed
shard-list order (smallest first once sorted). -/
def find_small_shards (p : Plan) (big : NodeInfo) : List (NodeInfo × Shard) :=
  (p.nodes_by_size.reverse.takeWhile (fun n => !(decide (n.name = big.name)))).flatMap
    (fun n => (n.shards.reverse.filter p.shardEligible).map (fun s => (n, s)))

/-- Size ratio of the two shards, small over large, from can_exchange_shards. -/
def sizeFraction (s1 s2 : Shard) : ℚ :=
  if s2.store < s1.store then (s2.store : ℚ) / (s1.store : ℚ)
  else (s1.store : ℚ) / (s2.store : ℚ)

/-- Rack scan of can_exchange_shards: some node other than excludeName sits on
destRack and holds a shard with the same index and shard number as s. -/
def rackConflict (nodes : List NodeInfo) (excludeName : String) (destRack : String)
    (s : Shard) : Bool :=
  nodes.any (fun n =>
    !(decide (n.name = excludeName)) && decide (n.rack = destRack) &&
      n.shards.any (fun cs => decide (s.index = cs.index) && decide (s.shard = cs.shard)))

/-- Plan.can_exchange_shards: the five rejection filters from the source, in
order: self swap, size-benefit, node similarity, capacity (the naive form of
the committed code: current used plus incoming store), and the two rack
scans. -/
def can_exchange_shards (p : Plan) (n1 : NodeInfo) (s1 : Shard) (n2 : NodeInfo)
    (s2 : Shard) : Bool :=
  !(decide (n1.name = n2.name)) &&
  !(decide (p.shard_fraction_threshold < sizeFraction s1 s2)) &&
  !(decide (|n1.fraction_used - n2.fraction_used| < p.node_fraction_threshold)) &&
  !(decide (n1.capacity < n1.used + s2.store) || decide (n2.capacity < n2.used + s1.store)) &&
  !(rackConflict p.nodes_by_size n1.name n2.rack s1) &&
  !(rackConflict p.nodes_by_size n2.name n1.rack s2)

/-- Modelled from the spec: section 4.2 step 4 prescribes the corrected net
capacity filter (subtract the outgoing shard, then add the incoming one).
This definition differs from can_exchange_shards only in that filter; it is
the comparison point for the capacity-filter claim. -/
def can_exchange_shards_specform (p : Plan) (n1 : NodeInfo) (s1 : Shard) (n2 : NodeInfo)
    (s2 : Shard) : Bool :=
  !(decide (n1.name = n2.name)) &&
  !(decide (p.shard_fraction_threshold < sizeFraction s1 s2)) &&
  !(decide (|n1.fraction_used - n2.fraction_used| < p.node_fraction_threshold)) &&
  !(decide ((n1.capacity : ℤ) < (n1.used : ℤ) - (s1.store : ℤ) + (s2.store : ℤ)) ||
    decide ((n2.capacity : ℤ) < (n2.used : ℤ) - (s2.store : ℤ) + (s1.store : ℤ))) &&
  !(rackConflict p.nodes_by_size n1.name n2.rack s1) &&
  !(rackConflict p.nodes_by_size n2.name n1.rack s2)

/-- Shard-list update of Plan.plan_exchange: node1 loses s1 and gains s2,
node2 loses s2 and gains s1 (list remove takes the first equal element,
append puts the incoming shard at the end). Nodes are recognised by name;
the caller guarantees the two names differ (first filter of
can_exchange_shards). -/
def exchangeNodes (nodes : List NodeInfo) (n1 : NodeInfo) (s1 : Shard)
    (n2 : NodeInfo) (s2 : Shard) : List NodeInfo :=
  nodes.map (fun n =>
    if n.name = n1.name then { n with shards := n.shards.erase s1 ++ [s2] }
    else if n.name = n2.name then { n with shards := n.shards.erase s2 ++ [s1] }
    else n)

/-- Plan.plan_exchange: append the two move commands, swap the shards between
the two nodes, record both shard identities in moved_shards, and resort
everything. -/
def plan_exchange (p : Plan) (n1 : NodeInfo) (s1 : Shard) (n2 : NodeInfo)
    (s2 : Shard) : Plan :=
  Plan.sortNodes
    { p with
      operations := p.operations ++
        [ { index := s1.index, shard := s1.shard, from_node := n1.name, to_node := n2.name },
          { index := s2.index, shard := s2.shard, from_node := n2.name, to_node := n1.name } ],
      nodes_by_size := exchangeNodes p.nodes_by_size n1 s1 n2 s2,
      moved_shards := p.moved_shards ++ [(s1.index, s1.shard), (s2.index, s2.shard)] }

/-- Population variance of a list of rationals: mean of squared deviations
from the mean. Only used on nonempty lists. -/
def pvar (xs : List ℚ) : ℚ :=
  let μ := xs.sum / (xs.length : ℚ)
  ((xs.map (fun x => (x - μ) ^ 2)).sum) / (xs.length : ℚ)

/-- statistics.pvariance: raises StatisticsError (modelled as none) on an
empty data sequence. -/
def pvarianceE (xs : List ℚ) : Option ℚ :=
  if xs.isEmpty then none else some (pvar xs)

/-- The percentage closure inside Plan.percent_used_variance: the used bytes
of the node, minus the stores of the excluded shards attached to it, plus the
stores of the included shards attached to it, divided by its capacity.
Override entries name the node they apply to. -/
def percentage (excl incl : List (String × Shard)) (n : NodeInfo) : ℚ :=
  ((n.used : ℚ)
      - ((excl.filter (fun e => decide (e.1 = n.name))).map (fun e => (e.2.store : ℚ))).sum
      + ((incl.filter (fun e => decide (e.1 = n.name))).map (fun e => (e.2.store : ℚ))).sum)
    / (n.capacity : ℚ)

/-- Plan.percent_used_variance with the optional exclude and include override
sets. -/
def percent_used_variance (p : Plan) (excl incl : List (String × Shard)) : Option ℚ :=
  pvarianceE (p.nodes_by_size.map (percentage excl incl))

/-- The three acceptance conditions of the inner loop of Plan.plan_step: the
small shard is strictly smaller, can_exchange_shards holds, and the
hypothetical variance with the two shards swapped is strictly below the
current one. -/
def acceptPair (p : Plan) (current : ℚ)
    (c : (NodeInfo × Shard) × (NodeInfo × Shard)) : Bool :=
  decide (c.2.2.store < c.1.2.store) &&
  p.can_exchange_shards c.1.1 c.1.2 c.2.1 c.2.2 &&
  (match p.percent_used_variance
      [(c.1.1.name, c.1.2), (c.2.1.name, c.2.2)]
      [(c.2.1.name, c.1.2), (c.1.1.name, c.2.2)] with
   | none => false
   | some ev => decide (ev < current))

/-- The candidate pairs scanned by Plan.plan_step, in scan order: big
candidates outermost, small candidates innermost. The generators read state
that is not mutated during the scan, so the eager list is the yielded
sequence. -/
def candidatePairs (p : Plan) : List ((NodeInfo × Shard) × (NodeInfo × Shard)) :=
  p.find_big_shards.flatMap (fun bp => (p.find_small_shards bp.1).map (fun sp => (bp, sp)))

/-- Plan.plan_step: compute the current variance (StatisticsError on an empty
node list), then commit the first acceptable candidate pair and return true,
or return false leaving the plan untouched. -/
def plan_step (p : Plan) : Option (Bool × Plan) :=
  match p.percent_used_variance [] [] with
  | none => none
  | some current =>
    match p.candidatePairs.find? (p.acceptPair current) with
    | some c => some (true, p.plan_exchange c.1.1 c.1.2 c.2.1 c.2.2)
    | none => some (false, p)

/-- Iterated plan_step, the driver loop: the state returned by each call is
fed to the next; a raised error (none) is absorbing. -/
def runSteps : Nat → Plan → Option Plan
  | 0, p => some p
  | k + 1, p =>
    match p.plan_step with
    | none => none
    | some (_, q) => runSteps k q

end Plan

/-- Invariant: every node carries distinct names (the source builds nodes
from a dict keyed on the name, and compares nodes by object identity). -/
def namesNodup (p : Plan) : Prop :=
  (p.nodes_by_size.map NodeInfo.name).Nodup

/-- Invariant: the used field of every node is the sum of its member shard
stores (established by NodeInfo.resort, hence by construction and by every
Plan._sort). -/
def usedInv (p : Plan) : Prop :=
  ∀ n ∈ p.nodes_by_size, n.used = (n.shards.map Shard.store).sum

/-- Number of shards with the given index and shard number hosted on the
given rack. -/
def rackCount (nodes : List NodeInfo) (r idx : String) (sh : Nat) : Nat :=
  (nodes.map (fun n =>
    if n.rack = r then
      n.shards.countP (fun s => decide (s.index = idx) && decide (s.shard = sh))
    else 0)).sum

/-- Rack safety: no rack hosts two shards sharing an index and shard number. -/
def rackSafe (nodes : List NodeInfo) : Prop :=
  ∀ r idx sh, rackCount nodes r idx sh ≤ 1

/-- All (rack, index, shard number) occurrences of a node list, used to give
rackSafe a decidable sufficient check. -/
def rackOccs (nodes : List NodeInfo) : List (String × String × Nat) :=
  nodes.flatMap (fun n => n.shards.map (fun s => (n.rack, s.index, s.shard)))

/-- Multiset of all shards across the fleet. -/
def allShards (nodes : List NodeInfo) : Multiset Shard :=
  (nodes.map (fun n => (n.shards : Multiset Shard))).sum

/-- Multiset of the immutable node attributes: name, ip, rack, capacity. -/
def nodeIdentities (nodes : List NodeInfo) : Multiset (String × String × String × Nat) :=
  ((nodes.map (fun n => (n.name, n.ip, n.rack, n.capacity))) : Multiset _)

/-- Total used bytes across the fleet. -/
def totalUsed (nodes : List NodeInfo) : Nat :=
  (nodes.map NodeInfo.used).sum

/-! Concrete plans used to exercise the theorems: a two-node fleet where one
exchange is committed (the scenario of the spec), a single-node fleet where
planning converges at once, and the inputs pinning down the capacity
filter. -/

def shardA : Shard :=
  { index := "ia", shard := 0, prirep := "p", store := 40, can_move := true }

def shardB : Shard :=
  { index := "ib", shard := 0, prirep := "p", store := 10, can_move := true }

def shardC : Shard :=
  { index := "ic", shard := 0, prirep := "p", store := 5, can_move := true }

def shardD : Shard :=
  { index := "id", shard := 0, prirep := "p", store := 5, can_move := true }

def nodeA : NodeInfo :=
  { name := "A", ip := "1", rack := "r1", capacity := 100,
    shards := [shardA, shardB], used := 50 }

def nodeB : NodeInfo :=
  { name := "B", ip := "2", rack := "r2", capacity := 100,
    shards := [shardC, shardD], used := 10 }

def wplan : Plan :=
  { shard_fraction_threshold := 9/10, node_fraction_threshold := 1/10,
    operations := [], nodes_by_size := [nodeA, nodeB], moved_shards := [] }

/-- The state after the one exchange wplan commits. -/
def wplanStep : Plan :=
  match wplan.plan_step with
  | some (_, q) => q
  | none => wplan

/-- A copy of wplan with different operations and moved_shards, to witness
that percent_used_variance only reads the node list. -/
def oplan : Plan :=
  { wplan with
    operations := [{ index := "ia", shard := 0, from_node := "A", to_node := "B" }],
    moved_shards := [("zz", 9)] }

def nodeS : NodeInfo :=
  { name := "S", ip := "3", rack := "r3", capacity := 100,
    shards := [shardB], used := 10 }

def fplan : Plan :=
  { shard_fraction_threshold := 9/10, node_fraction_threshold := 1/10,
    operations := [], nodes_by_size := [nodeS], moved_shards := [] }

def cshard1 : Shard :=
  { index := "x1", shard := 0, prirep := "p", store := 50, can_move := true }

def cshard3 : Shard :=
  { index := "x3", shard := 0, prirep := "p", store := 50, can_move := true }

def cshard2 : Shard :=
  { index := "x2", shard := 0, prirep := "p", store := 10, can_move := true }

def cnode1 : NodeInfo :=
  { name := "C1", ip := "4", rack := "q1", capacity := 105,
    shards := [cshard1, cshard3], used := 100 }

def cnode2 : NodeInfo :=
  { name := "C2", ip := "5", rack := "q2", capacity := 1000,
    shards := [cshard2], used := 10 }

def cplan : Plan :=
  { shard_fraction_threshold := 1/2, node_fraction_threshold := 1/10,
    operations := [], nodes_by_size := [cnode1, cnode2], moved_shards := [] }

end ESRebalance

/-! Basic facts about percent_used_variance and plan_step. -/

namespace ESRebalance

theorem percent_used_variance_none_iff (p : Plan) (excl incl : List (String × Shard)) :
    p.percent_used_variance excl incl = none ↔ p.nodes_by_size = [] := by
  unfold Plan.percent_used_variance Plan.pvarianceE
  rcases h : p.nodes_by_size with _ | ⟨a, l⟩ <;> simp

theorem plan_step_none_iff (p : Plan) : p.plan_step = none ↔ p.nodes_by_size = [] := by
  unfold Plan.plan_step
  cases hv : p.percent_used_variance [] [] with
  | none =>
    simpa using (percent_used_variance_none_iff p [] []).mp hv
  | some cv =>
    have hne : ¬ p.nodes_by_size = [] := by
      intro he
      have := (percent_used_variance_none_iff p [] []).mpr he
      rw [this] at hv
      exact Option.noConfusion hv
    constructor
    · intro h
      exfalso
      have h2 : (match p.candidatePairs.find? (p.acceptPair cv) with
          | some c => some (true, p.plan_exchange c.1.1 c.1.2 c.2.1 c.2.2)
          | none => some (false, p)) = (none : Option (Bool × Plan)) := h
      cases hf : p.candidatePairs.find? (p.acceptPair cv) with
      | none => rw [hf] at h2; exact Option.noConfusion h2
      | some c => rw [hf] at h2; exact Option.noConfusion h2
    · intro he
      exact absurd he hne

theorem plan_step_false_elim {p q : Plan} (h : p.plan_step = some (false, q)) : q = p := by
  unfold Plan.plan_step at h
  split at h
  · exact Option.noConfusion h
  · split at h
    · simp at h
    · simpa using (Prod.mk.injEq _ _ _ _ ▸ Option.some.inj h).2.symm

theorem plan_step_true_elim {p p' : Plan} (h : p.plan_step = some (true, p')) :
    ∃ cv c, p.percent_used_variance [] [] = some cv ∧
      c ∈ p.candidatePairs ∧ p.acceptPair cv c = true ∧
      p' = p.plan_exchange c.1.1 c.1.2 c.2.1 c.2.2 := by
  unfold Plan.plan_step at h
  split at h
  · exact Option.noConfusion h
  case _ cv hv =>
    split at h
    case _ c hf =>
      have h2 := Option.some.inj h
      rw [Prod.mk.injEq] at h2
      exact ⟨cv, c, hv, List.mem_of_find?_eq_some hf, List.find?_some hf, h2.2.symm⟩
    · simp at h

theorem candidatePairs_mem {p : Plan} {c : (NodeInfo × Shard) × (NodeInfo × Shard)}
    (h : c ∈ p.candidatePairs) :
    c.1 ∈ p.find_big_shards ∧ c.2 ∈ p.find_small_shards c.1.1 := by
  unfold Plan.candidatePairs at h
  rw [List.mem_flatMap] at h
  obtain ⟨bp, hbp, hc⟩ := h
  rw [List.mem_map] at hc
  obtain ⟨sp, hsp, rfl⟩ := hc
  exact ⟨hbp, hsp⟩

theorem shardEligible_elim {p : Plan} {s : Shard} (h : p.shardEligible s = true) :
    (s.index, s.shard) ∉ p.moved_shards ∧ s.can_move = true := by
  unfold Plan.shardEligible at h
  simp only [Bool.and_eq_true, Bool.not_eq_true', decide_eq_false_iff_not] at h
  exact h

theorem find_big_mem {p : Plan} {n : NodeInfo} {s : Shard}
    (h : (n, s) ∈ p.find_big_shards) :
    n ∈ p.nodes_by_size ∧ s ∈ n.shards ∧ p.shardEligible s = true := by
  unfold Plan.find_big_shards at h
  cases hl : p.nodes_by_size.getLast? with
  | none => rw [hl] at h; exact absurd h (List.not_mem_nil _)
  | some last =>
    rw [hl] at h
    rw [List.mem_flatMap] at h
    obtain ⟨m, hm, hin⟩ := h
    rw [List.mem_map] at hin
    obtain ⟨t, ht, he⟩ := hin
    rw [Prod.mk.injEq] at he
    obtain ⟨rfl, rfl⟩ := he
    have hmem : m ∈ p.nodes_by_size := (List.takeWhile_sublist _).subset hm
    have hf := List.mem_filter.mp ht
    exact ⟨hmem, hf.1, hf.2⟩

theorem find_small_mem {p : Plan} {big : NodeInfo} {n : NodeInfo} {s : Shard}
    (h : (n, s) ∈ p.find_small_shards big) :
    n ∈ p.nodes_by_size ∧ s ∈ n.shards ∧ p.shardEligible s = true := by
  unfold Plan.find_small_shards at h
  rw [List.mem_flatMap] at h
  obtain ⟨m, hm, hin⟩ := h
  rw [List.mem_map] at hin
  obtain ⟨t, ht, he⟩ := hin
  rw [Prod.mk.injEq] at he
  obtain ⟨rfl, rfl⟩ := he
  have hmem : m ∈ p.nodes_by_size := by
    have := (List.takeWhile_sublist _).subset hm
    exact List.mem_reverse.mp this
  have hf := List.mem_filter.mp ht
  exact ⟨hmem, List.mem_reverse.mp hf.1, hf.2⟩

theorem acceptPair_elim {p : Plan} {cv : ℚ} {c : (NodeInfo × Shard) × (NodeInfo × Shard)}
    (h : p.acceptPair cv c = true) :
    c.2.2.store < c.1.2.store ∧
    p.can_exchange_shards c.1.1 c.1.2 c.2.1 c.2.2 = true ∧
    ∃ ev, p.percent_used_variance
        [(c.1.1.name, c.1.2), (c.2.1.name, c.2.2)]
        [(c.2.1.name, c.1.2), (c.1.1.name, c.2.2)] = some ev ∧ ev < cv := by
  unfold Plan.acceptPair at h
  simp only [Bool.and_eq_true, decide_eq_true_eq] at h
  refine ⟨h.1.1, h.1.2, ?_⟩
  rcases h with ⟨-, h⟩
  cases hv : p.percent_used_variance
      [(c.1.1.name, c.1.2), (c.2.1.name, c.2.2)]
      [(c.2.1.name, c.1.2), (c.1.1.name, c.2.2)] with
  | none => rw [hv] at h; exact absurd h (by simp)
  | some ev =>
    rw [hv] at h
    exact ⟨ev, rfl, by simpa using h⟩

end ESRebalance

/-! Rejection-filter eliminators for can_exchange_shards. -/

namespace ESRebalance

theorem rackConflict_elim {nodes : List NodeInfo} {excl rack : String} {s : Shard}
    (h : Plan.rackConflict nodes excl rack s = false) :
    ∀ n ∈ nodes, n.name ≠ excl → n.rack = rack → ∀ cs ∈ n.shards,
      ¬(s.index = cs.index ∧ s.shard = cs.shard) := by
  unfold Plan.rackConflict at h
  rw [List.any_eq_false] at h
  intro n hn hname hrack cs hcs hid
  have hx := h n hn
  simp only [Bool.and_eq_true, Bool.not_eq_true', decide_eq_false_iff_not,
    decide_eq_true_eq, List.any_eq_true, not_and, not_exists, not_or] at hx
  tauto

theorem can_exchange_elim {p : Plan} {n1 n2 : NodeInfo} {s1 s2 : Shard}
    (h : p.can_exchange_shards n1 s1 n2 s2 = true) :
    n1.name ≠ n2.name ∧
    ¬(p.shard_fraction_threshold < Plan.sizeFraction s1 s2) ∧
    ¬(|n1.fraction_used - n2.fraction_used| < p.node_fraction_threshold) ∧
    (¬(n1.capacity < n1.used + s2.store) ∧ ¬(n2.capacity < n2.used + s1.store)) ∧
    Plan.rackConflict p.nodes_by_size n1.name n2.rack s1 = false ∧
    Plan.rackConflict p.nodes_by_size n2.name n1.rack s2 = false := by
  unfold Plan.can_exchange_shards at h
  simp only [Bool.and_eq_true, Bool.not_eq_true', Bool.or_eq_false_iff,
    decide_eq_false_iff_not] at h
  exact ⟨h.1.1.1.1.1, h.1.1.1.1.2, h.1.1.1.2, h.1.1.2, h.1.2, h.2⟩

end ESRebalance

/-! Claim theorems: convergence, atomicity, purity, error behaviour, no double
move. -/

namespace ESRebalance

/-- C10: plan_step raises a StatisticsError (modelled as none) exactly when the
plan has no nodes, because the initial percent_used_variance call does; on any
plan with at least one node both are well defined (the divisions are total on
rationals, capacities being positive). -/
theorem c10_empty_nodes_error (p : Plan) :
    (p.plan_step = none ↔ p.nodes_by_size = []) ∧
    (p.percent_used_variance [] [] = none ↔ p.nodes_by_size = []) :=
  ⟨plan_step_none_iff p, percent_used_variance_none_iff p [] []⟩

/-- C4: a false-returning plan_step performs no mutation, so the state is
unchanged and every subsequent call, however often iterated, again returns
false on that same state. -/
theorem c4_idempotent_convergence (p q : Plan) (h : p.plan_step = some (false, q)) :
    q = p ∧ q.plan_step = some (false, q) ∧ ∀ k, Plan.runSteps k q = some q := by
  have hq : q = p := plan_step_false_elim h
  subst hq
  refine ⟨rfl, h, ?_⟩
  intro k
  induction k with
  | zero => rfl
  | succ k ih =>
    unfold Plan.runSteps
    rw [h]
    exact ih

/-- C8: percent_used_variance is a pure function of the node list and the two
override sets; the embedding of the source method reads but never writes the
planner state (its closure only folds over nodes_by_size), so two plans with
the same node list give the same value whatever their operations and
moved_shards are. -/
theorem c8_variance_pure (p q : Plan) (excl incl : List (String × Shard))
    (h : p.nodes_by_size = q.nodes_by_size) :
    p.percent_used_variance excl incl = q.percent_used_variance excl incl := by
  unfold Plan.percent_used_variance
  rw [h]

/-- C5: plan_step is atomic; it either returns false with the state untouched,
or returns true having committed exactly one exchange: the two move commands
appended, both shard identities added to moved_shards, and the node list
updated by the swap and fully resorted. -/
theorem c5_plan_step_atomic (p : Plan) (r : Bool) (p' : Plan)
    (h : p.plan_step = some (r, p')) :
    (r = false ∧ p' = p) ∨
    (r = true ∧ ∃ bn bs sn ss, (bn, bs) ∈ p.find_big_shards ∧
      (sn, ss) ∈ p.find_small_shards bn ∧
      p.can_exchange_shards bn bs sn ss = true ∧
      p' = p.plan_exchange bn bs sn ss ∧
      p'.operations = p.operations ++
        [ { index := bs.index, shard := bs.shard, from_node := bn.name, to_node := sn.name },
          { index := ss.index, shard := ss.shard, from_node := sn.name, to_node := bn.name } ] ∧
      p'.moved_shards = p.moved_shards ++ [(bs.index, bs.shard), (ss.index, ss.shard)] ∧
      p'.nodes_by_size =
        sortNodesBySize ((Plan.exchangeNodes p.nodes_by_size bn bs sn ss).map NodeInfo.resort)) := by
  cases r with
  | false => exact Or.inl ⟨rfl, plan_step_false_elim h⟩
  | true =>
    obtain ⟨cv, c, hv, hmem, hacc, hp'⟩ := plan_step_true_elim h
    obtain ⟨hbig, hsmall⟩ := candidatePairs_mem hmem
    obtain ⟨hlt, hcan, -⟩ := acceptPair_elim hacc
    subst hp'
    exact Or.inr ⟨rfl, c.1.1, c.1.2, c.2.1, c.2.2, hbig, hsmall, hcan, rfl, rfl, rfl, rfl⟩

theorem moved_mono_step {p q : Plan} {r : Bool} (h : p.plan_step = some (r, q)) :
    p.moved_shards ⊆ q.moved_shards := by
  cases r with
  | false =>
    have hq : q = p := plan_step_false_elim h
    subst hq
    exact fun x hx => hx
  | true =>
    obtain ⟨cv, c, hv, hmem, hacc, hq⟩ := plan_step_true_elim h
    subst hq
    exact List.subset_append_left _ _

theorem moved_mono_run {k : Nat} {p q : Plan} (h : Plan.runSteps k p = some q) :
    p.moved_shards ⊆ q.moved_shards := by
  induction k generalizing p with
  | zero =>
    have hq : q = p := (Option.some.inj h).symm
    subst hq
    exact fun x hx => hx
  | succ k ih =>
    unfold Plan.runSteps at h
    cases hs : p.plan_step with
    | none => rw [hs] at h; exact Option.noConfusion h
    | some rq =>
      rw [hs] at h
      exact (moved_mono_step (p := p) (q := rq.2) (r := rq.1) hs).trans (ih h)

theorem find_big_not_moved {p : Plan} {x : NodeInfo × Shard} (h : x ∈ p.find_big_shards) :
    (x.2.index, x.2.shard) ∉ p.moved_shards := by
  obtain ⟨n, s⟩ := x
  exact (shardEligible_elim (find_big_mem h).2.2).1

theorem find_small_not_moved {p : Plan} {bn : NodeInfo} {x : NodeInfo × Shard}
    (h : x ∈ p.find_small_shards bn) :
    (x.2.index, x.2.shard) ∉ p.moved_shards := by
  obtain ⟨n, s⟩ := x
  exact (shardEligible_elim (find_small_mem h).2.2).1

/-- C6: once a shard identity is part of a committed exchange (one of the two
move commands the committing step appended), no later candidate scan of the
run yields a shard with that identity: the identity sits in moved_shards from
the commit on, moved_shards only grows, and both generators filter it out. -/
theorem c6_no_double_move (p p₁ q : Plan) (k : Nat) (idt : String × Nat)
    (hstep : p.plan_step = some (true, p₁))
    (hid : idt ∈ (p₁.operations.drop p.operations.length).map (fun op => (op.index, op.shard)))
    (hrun : Plan.runSteps k p₁ = some q) :
    (∀ x ∈ q.find_big_shards, (x.2.index, x.2.shard) ≠ idt) ∧
    (∀ bn : NodeInfo, ∀ x ∈ q.find_small_shards bn, (x.2.index, x.2.shard) ≠ idt) := by
  obtain ⟨cv, c, hv, hmem, hacc, hp1⟩ := plan_step_true_elim hstep
  subst hp1
  have hops : ((p.plan_exchange c.1.1 c.1.2 c.2.1 c.2.2).operations.drop
      p.operations.length).map (fun op => (op.index, op.shard)) =
      [(c.1.2.index, c.1.2.shard), (c.2.2.index, c.2.2.shard)] := by
    show ((p.operations ++ _).drop p.operations.length).map _ = _
    rw [List.drop_left]
    rfl
  rw [hops] at hid
  have hmoved : idt ∈ (p.plan_exchange c.1.1 c.1.2 c.2.1 c.2.2).moved_shards := by
    show idt ∈ p.moved_shards ++ [(c.1.2.index, c.1.2.shard), (c.2.2.index, c.2.2.shard)]
    exact List.mem_append_right _ hid
  have hq : idt ∈ q.moved_shards := moved_mono_run hrun hmoved
  constructor
  · intro x hx heq
    exact (find_big_not_moved hx) (heq ▸ hq)
  · intro bn x hx heq
    exact (find_small_not_moved hx) (heq ▸ hq)

end ESRebalance

/-! Variance machinery: the hypothetical variance computed before a commit is
the actual variance after it. -/

namespace ESRebalance

theorem pvar_perm {l l' : List ℚ} (h : l.Perm l') : Plan.pvar l = Plan.pvar l' := by
  unfold Plan.pvar
  rw [h.sum_eq, h.length_eq]
  show (List.map (fun x => (x - l'.sum / (l'.length : ℚ)) ^ 2) l).sum / (l'.length : ℚ) =
    (List.map (fun x => (x - l'.sum / (l'.length : ℚ)) ^ 2) l').sum / (l'.length : ℚ)
  rw [(h.map (fun x => (x - l'.sum / (l'.length : ℚ)) ^ 2)).sum_eq]

theorem pvarianceE_perm {l l' : List ℚ} (h : l.Perm l') :
    Plan.pvarianceE l = Plan.pvarianceE l' := by
  have hlen := h.length_eq
  unfold Plan.pvarianceE
  cases l with
  | nil =>
    cases l' with
    | nil => rfl
    | cons b u => simp at hlen
  | cons a t =>
    cases l' with
    | nil => simp at hlen
    | cons b u => simpa using pvar_perm h

theorem name_inj {l : List NodeInfo} (hND : (l.map NodeInfo.name).Nodup)
    {a b : NodeInfo} (ha : a ∈ l) (hb : b ∈ l) (h : a.name = b.name) : a = b :=
  List.inj_on_of_nodup_map hND ha hb h

theorem nodes_split {l : List NodeInfo} {bn sn : NodeInfo}
    (hND : (l.map NodeInfo.name).Nodup) (hbn : bn ∈ l) (hsn : sn ∈ l)
    (hne : bn.name ≠ sn.name) :
    ∃ rest, l.Perm (bn :: sn :: rest) ∧
      ∀ n ∈ rest, n.name ≠ bn.name ∧ n.name ≠ sn.name := by
  have hsnbn : sn ≠ bn := fun he => hne (congrArg NodeInfo.name he).symm
  have hsn2 : sn ∈ l.erase bn := (List.mem_erase_of_ne hsnbn).mpr hsn
  have hperm : l.Perm (bn :: sn :: (l.erase bn).erase sn) :=
    (List.perm_cons_erase hbn).trans ((List.perm_cons_erase hsn2).cons bn)
  refine ⟨(l.erase bn).erase sn, hperm, ?_⟩
  have hND2 : ((bn :: sn :: (l.erase bn).erase sn).map NodeInfo.name).Nodup :=
    ((hperm.map NodeInfo.name).nodup_iff).mp hND
  rw [List.map_cons, List.map_cons, List.nodup_cons, List.nodup_cons] at hND2
  intro n hn
  constructor
  · intro he
    exact hND2.1 (List.mem_cons_of_mem _ (he ▸ List.mem_map_of_mem NodeInfo.name hn))
  · intro he
    exact hND2.2.1 (he ▸ List.mem_map_of_mem NodeInfo.name hn)

theorem sum_store_erase {l : List Shard} {s : Shard} (h : s ∈ l) :
    (l.map Shard.store).sum = s.store + ((l.erase s).map Shard.store).sum := by
  have hp := List.perm_cons_erase h
  rw [(hp.map Shard.store).sum_eq]
  simp

theorem percentage_no_override (n : NodeInfo) :
    Plan.percentage [] [] n = (n.used : ℚ) / (n.capacity : ℚ) := by
  unfold Plan.percentage
  simp

theorem percentage_resort (m : NodeInfo) :
    Plan.percentage [] [] (NodeInfo.resort m) =
      (((m.shards.map Shard.store).sum : ℚ)) / (m.capacity : ℚ) := by
  rw [percentage_no_override]
  show ((((sortShardsDesc m.shards).map Shard.store).sum : ℚ)) / (m.capacity : ℚ) = _
  have hp : (sortShardsDesc m.shards).Perm m.shards := List.perm_insertionSort _ _
  rw [(hp.map Shard.store).sum_eq]

end ESRebalance

namespace ESRebalance

theorem percentage_override_big {bn sn : NodeInfo} {bs ss : Shard}
    (hbs : bs ∈ bn.shards) (hUbn : bn.used = (bn.shards.map Shard.store).sum)
    (hne : bn.name ≠ sn.name) :
    Plan.percentage [(bn.name, bs), (sn.name, ss)] [(sn.name, bs), (bn.name, ss)] bn =
      ((((bn.shards.erase bs ++ [ss]).map Shard.store).sum : ℚ)) / (bn.capacity : ℚ) := by
  unfold Plan.percentage
  have hsb : ¬ (sn.name = bn.name) := fun h => hne h.symm
  have hfE : ([((bn.name : String), bs), (sn.name, ss)].filter
      (fun e => decide (e.1 = bn.name))) = [(bn.name, bs)] := by
    simp [List.filter_cons, hsb]
  have hfI : ([((sn.name : String), bs), (bn.name, ss)].filter
      (fun e => decide (e.1 = bn.name))) = [(bn.name, ss)] := by
    simp [List.filter_cons, hsb]
  rw [hfE, hfI, hUbn, sum_store_erase hbs, List.map_append, List.sum_append]
  simp only [List.map_cons, List.map_nil, List.sum_cons, List.sum_nil]
  push_cast
  ring

theorem percentage_override_small {bn sn : NodeInfo} {bs ss : Shard}
    (hss : ss ∈ sn.shards) (hUsn : sn.used = (sn.shards.map Shard.store).sum)
    (hne : bn.name ≠ sn.name) :
    Plan.percentage [(bn.name, bs), (sn.name, ss)] [(sn.name, bs), (bn.name, ss)] sn =
      ((((sn.shards.erase ss ++ [bs]).map Shard.store).sum : ℚ)) / (sn.capacity : ℚ) := by
  unfold Plan.percentage
  have hfE : ([((bn.name : String), bs), (sn.name, ss)].filter
      (fun e => decide (e.1 = sn.name))) = [(sn.name, ss)] := by
    simp [List.filter_cons, hne]
  have hfI : ([((sn.name : String), bs), (bn.name, ss)].filter
      (fun e => decide (e.1 = sn.name))) = [(sn.name, bs)] := by
    simp [List.filter_cons, hne]
  rw [hfE, hfI, hUsn, sum_store_erase hss, List.map_append, List.sum_append]
  simp only [List.map_cons, List.map_nil, List.sum_cons, List.sum_nil]
  push_cast
  ring

theorem percentage_override_other {bn sn n : NodeInfo} {bs ss : Shard}
    (h1 : n.name ≠ bn.name) (h2 : n.name ≠ sn.name)
    (hUn : n.used = (n.shards.map Shard.store).sum) :
    Plan.percentage [(bn.name, bs), (sn.name, ss)] [(sn.name, bs), (bn.name, ss)] n =
      (((n.shards.map Shard.store).sum : ℚ)) / (n.capacity : ℚ) := by
  unfold Plan.percentage
  have hb : ¬ (bn.name = n.name) := fun h => h1 h.symm
  have hs : ¬ (sn.name = n.name) := fun h => h2 h.symm
  have hfE : ([((bn.name : String), bs), (sn.name, ss)].filter
      (fun e => decide (e.1 = n.name))) = [] := by
    simp [List.filter_cons, hb, hs]
  have hfI : ([((sn.name : String), bs), (bn.name, ss)].filter
      (fun e => decide (e.1 = n.name))) = [] := by
    simp [List.filter_cons, hb, hs]
  rw [hfE, hfI, hUn]
  simp

theorem exchange_variance_eq {p : Plan} {bn sn : NodeInfo} {bs ss : Shard}
    (hND : namesNodup p) (hU : usedInv p)
    (hbn : bn ∈ p.nodes_by_size) (hsn : sn ∈ p.nodes_by_size)
    (hbs : bs ∈ bn.shards) (hss : ss ∈ sn.shards)
    (hne : bn.name ≠ sn.name) :
    (p.plan_exchange bn bs sn ss).percent_used_variance [] [] =
      p.percent_used_variance [(bn.name, bs), (sn.name, ss)]
        [(sn.name, bs), (bn.name, ss)] := by
  unfold Plan.percent_used_variance
  apply pvarianceE_perm
  have h1 : (p.plan_exchange bn bs sn ss).nodes_by_size.Perm
      ((Plan.exchangeNodes p.nodes_by_size bn bs sn ss).map NodeInfo.resort) :=
    List.perm_insertionSort _ _
  refine (h1.map (Plan.percentage [] [])).trans ?_
  unfold Plan.exchangeNodes
  rw [List.map_map, List.map_map]
  have hpoint : ∀ n ∈ p.nodes_by_size,
      ((Plan.percentage [] [] ∘ NodeInfo.resort) ∘ (fun n =>
        if n.name = bn.name then { n with shards := n.shards.erase bs ++ [ss] }
        else if n.name = sn.name then { n with shards := n.shards.erase ss ++ [bs] }
        else n)) n
      = Plan.percentage [(bn.name, bs), (sn.name, ss)] [(sn.name, bs), (bn.name, ss)] n := by
    intro n hn
    simp only [Function.comp_apply]
    by_cases h1n : n.name = bn.name
    · have heq : n = bn := name_inj hND hn hbn h1n
      subst heq
      rw [if_pos rfl, percentage_resort, percentage_override_big hbs (hU n hn) hne]
    · by_cases h2n : n.name = sn.name
      · have heq : n = sn := name_inj hND hn hsn h2n
        subst heq
        rw [if_neg h1n, if_pos rfl, percentage_resort,
          percentage_override_small hss (hU n hn) hne]
      · rw [if_neg h1n, if_neg h2n, percentage_resort,
          percentage_override_other h1n h2n (hU n hn)]
  rw [List.map_congr_left hpoint]

/-- C2: every exchange committed by plan_step strictly decreases the population
variance of per-node usage fraction: the step only accepts a pair whose
hypothetical variance (the two shards excluded from their holders and included
on the opposite nodes) is strictly below the current one, and that
hypothetical value is exactly the variance of the committed state. -/
theorem c2_variance_strict_decrease (p p' : Plan)
    (hND : namesNodup p) (hU : usedInv p)
    (h : p.plan_step = some (true, p')) :
    ∃ v v', p.percent_used_variance [] [] = some v ∧
      p'.percent_used_variance [] [] = some v' ∧ v' < v := by
  obtain ⟨cv, c, hv, hmem, hacc, hp'⟩ := plan_step_true_elim h
  obtain ⟨hbig, hsmall⟩ := candidatePairs_mem hmem
  obtain ⟨hbn, hbs, _⟩ := find_big_mem (p := p) (n := c.1.1) (s := c.1.2) hbig
  obtain ⟨hsn, hss, _⟩ := find_small_mem (p := p) (n := c.2.1) (s := c.2.2) hsmall
  obtain ⟨hlt, hcan, ev, hev, hevlt⟩ := acceptPair_elim hacc
  have hne : c.1.1.name ≠ c.2.1.name := (can_exchange_elim hcan).1
  have hpost : p'.percent_used_variance [] [] = some ev := by
    rw [hp', exchange_variance_eq hND hU hbn hsn hbs hss hne]
    exact hev
  exact ⟨cv, ev, hv, hpost, hevlt⟩

end ESRebalance

/-! Rack safety machinery. -/

namespace ESRebalance

theorem rackCount_perm {l l' : List NodeInfo} (h : l.Perm l') (r idx : String) (sh : Nat) :
    rackCount l r idx sh = rackCount l' r idx sh := by
  unfold rackCount
  exact (h.map _).sum_eq

theorem rackCount_resort (l : List NodeInfo) (r idx : String) (sh : Nat) :
    rackCount (l.map NodeInfo.resort) r idx sh = rackCount l r idx sh := by
  unfold rackCount
  rw [List.map_map]
  congr 1
  apply List.map_congr_left
  intro n hn
  simp only [Function.comp_apply]
  unfold NodeInfo.resort
  have hp : (sortShardsDesc n.shards).Perm n.shards := List.perm_insertionSort _ _
  rw [hp.countP_eq]

theorem map_id_of_eq {α : Type} {l : List α} {f : α → α} (h : ∀ a ∈ l, f a = a) :
    l.map f = l := by
  induction l with
  | nil => rfl
  | cons a t ih =>
    rw [List.map_cons, h a (List.mem_cons_self a t),
      ih (fun b hb => h b (List.mem_cons_of_mem a hb))]

theorem rackCount_cons (a : NodeInfo) (l : List NodeInfo) (r idx : String) (sh : Nat) :
    rackCount (a :: l) r idx sh =
      (if a.rack = r then
        a.shards.countP (fun s => decide (s.index = idx) && decide (s.shard = sh))
      else 0) + rackCount l r idx sh := by
  unfold rackCount
  rw [List.map_cons, List.sum_cons]

/-- C3: rack safety is preserved by every committed exchange: if no rack holds
two shards sharing an index and shard number before the commit, none does
after it, thanks to the two rack scans of can_exchange_shards. -/
theorem c3_rack_safety (p p' : Plan) (hND : namesNodup p)
    (hsafe : rackSafe p.nodes_by_size) (h : p.plan_step = some (true, p')) :
    rackSafe p'.nodes_by_size := by
  obtain ⟨cv, c, hv, hmem, hacc, hp'⟩ := plan_step_true_elim h
  obtain ⟨hbig, hsmall⟩ := candidatePairs_mem hmem
  obtain ⟨hbn, hbs, -⟩ := find_big_mem (p := p) (n := c.1.1) (s := c.1.2) hbig
  obtain ⟨hsn, hss, -⟩ := find_small_mem (p := p) (n := c.2.1) (s := c.2.2) hsmall
  obtain ⟨hne, -, -, -, hrc1, hrc2⟩ := can_exchange_elim (acceptPair_elim hacc).2.1
  have erc1 := rackConflict_elim hrc1
  have erc2 := rackConflict_elim hrc2
  obtain ⟨rest, hperm, hrest⟩ := nodes_split hND hbn hsn hne
  subst hp'
  intro r idx sh
  have e1 : rackCount (p.plan_exchange c.1.1 c.1.2 c.2.1 c.2.2).nodes_by_size r idx sh
      = rackCount (Plan.exchangeNodes p.nodes_by_size c.1.1 c.1.2 c.2.1 c.2.2) r idx sh := by
    show rackCount (sortNodesBySize
      ((Plan.exchangeNodes p.nodes_by_size c.1.1 c.1.2 c.2.1 c.2.2).map NodeInfo.resort))
      r idx sh = _
    unfold sortNodesBySize
    rw [rackCount_perm (List.perm_insertionSort _ _) r idx sh, rackCount_resort]
  rw [e1]
  have e2 : rackCount (Plan.exchangeNodes p.nodes_by_size c.1.1 c.1.2 c.2.1 c.2.2) r idx sh
      = rackCount (Plan.exchangeNodes (c.1.1 :: c.2.1 :: rest) c.1.1 c.1.2 c.2.1 c.2.2)
          r idx sh := by
    unfold Plan.exchangeNodes
    exact rackCount_perm (hperm.map _) r idx sh
  rw [e2]
  have hsnbn : ¬ (c.2.1.name = c.1.1.name) := fun hx => hne hx.symm
  have e3 : Plan.exchangeNodes (c.1.1 :: c.2.1 :: rest) c.1.1 c.1.2 c.2.1 c.2.2
      = { c.1.1 with shards := c.1.1.shards.erase c.1.2 ++ [c.2.2] }
        :: { c.2.1 with shards := c.2.1.shards.erase c.2.2 ++ [c.1.2] } :: rest := by
    unfold Plan.exchangeNodes
    rw [List.map_cons, List.map_cons, if_pos rfl, if_neg hsnbn, if_pos rfl,
      map_id_of_eq (fun n hn => by rw [if_neg (hrest n hn).1, if_neg (hrest n hn).2])]
  rw [e3]
  have egoal : rackCount
      ({ c.1.1 with shards := c.1.1.shards.erase c.1.2 ++ [c.2.2] }
        :: { c.2.1 with shards := c.2.1.shards.erase c.2.2 ++ [c.1.2] } :: rest) r idx sh
      = (if c.1.1.rack = r then
          (c.1.1.shards.erase c.1.2 ++ [c.2.2]).countP
            (fun s => decide (s.index = idx) && decide (s.shard = sh)) else 0)
        + ((if c.2.1.rack = r then
          (c.2.1.shards.erase c.2.2 ++ [c.1.2]).countP
            (fun s => decide (s.index = idx) && decide (s.shard = sh)) else 0)
          + rackCount rest r idx sh) := by
    rw [rackCount_cons, rackCount_cons]
  rw [egoal]
  have hO : (if c.1.1.rack = r then
        c.1.1.shards.countP (fun s => decide (s.index = idx) && decide (s.shard = sh)) else 0)
      + ((if c.2.1.rack = r then
        c.2.1.shards.countP (fun s => decide (s.index = idx) && decide (s.shard = sh)) else 0)
        + rackCount rest r idx sh) ≤ 1 := by
    rw [← rackCount_cons, ← rackCount_cons, ← rackCount_perm hperm r idx sh]
    exact hsafe r idx sh
  have hcb : c.1.1.shards.countP (fun s => decide (s.index = idx) && decide (s.shard = sh))
      = (c.1.1.shards.erase c.1.2).countP
          (fun s => decide (s.index = idx) && decide (s.shard = sh))
        + (if (decide (c.1.2.index = idx) && decide (c.1.2.shard = sh)) = true then 1 else 0) := by
    rw [(List.perm_cons_erase hbs).countP_eq
      (fun s => decide (s.index = idx) && decide (s.shard = sh)), List.countP_cons]
  have hcs : c.2.1.shards.countP (fun s => decide (s.index = idx) && decide (s.shard = sh))
      = (c.2.1.shards.erase c.2.2).countP
          (fun s => decide (s.index = idx) && decide (s.shard = sh))
        + (if (decide (c.2.2.index = idx) && decide (c.2.2.shard = sh)) = true then 1 else 0) := by
    rw [(List.perm_cons_erase hss).countP_eq
      (fun s => decide (s.index = idx) && decide (s.shard = sh)), List.countP_cons]
  have hnb : (c.1.1.shards.erase c.1.2 ++ [c.2.2]).countP
        (fun s => decide (s.index = idx) && decide (s.shard = sh))
      = (c.1.1.shards.erase c.1.2).countP
          (fun s => decide (s.index = idx) && decide (s.shard = sh))
        + (if (decide (c.2.2.index = idx) && decide (c.2.2.shard = sh)) = true then 1 else 0) := by
    rw [List.countP_append]
    simp [List.countP_cons]
  have hns : (c.2.1.shards.erase c.2.2 ++ [c.1.2]).countP
        (fun s => decide (s.index = idx) && decide (s.shard = sh))
      = (c.2.1.shards.erase c.2.2).countP
          (fun s => decide (s.index = idx) && decide (s.shard = sh))
        + (if (decide (c.1.2.index = idx) && decide (c.1.2.shard = sh)) = true then 1 else 0) := by
    rw [List.countP_append]
    simp [List.countP_cons]
  rw [hnb, hns]
  rw [hcb, hcs] at hO
  by_cases hPb : (decide (c.1.2.index = idx) && decide (c.1.2.shard = sh)) = true
  · by_cases hPs : (decide (c.2.2.index = idx) && decide (c.2.2.shard = sh)) = true
    ·
      by_cases hr1 : c.1.1.rack = r
      · by_cases hr2 : c.2.1.rack = r
        ·
          rw [if_pos hr1] at hO ⊢
          rw [if_pos hr2] at hO ⊢
          rw [if_pos hPb] at hO ⊢
          rw [if_pos hPs] at hO ⊢
          omega
        ·
          rw [if_pos hr1] at hO ⊢
          rw [if_neg hr2] at hO ⊢
          rw [if_pos hPb] at hO
          rw [if_pos hPs]
          omega
      · by_cases hr2 : c.2.1.rack = r
        ·
          rw [if_neg hr1] at hO ⊢
          rw [if_pos hr2] at hO ⊢
          rw [if_pos hPb]
          rw [if_pos hPs] at hO
          omega
        ·
          rw [if_neg hr1] at hO ⊢
          rw [if_neg hr2] at hO ⊢
          omega
    ·
      by_cases hr1 : c.1.1.rack = r
      · by_cases hr2 : c.2.1.rack = r
        ·
          have hb2 := hPb
          rw [Bool.and_eq_true, decide_eq_true_eq, decide_eq_true_eq] at hb2
          have hzsf : c.2.1.shards.countP (fun s => decide (s.index = idx) && decide (s.shard = sh)) = 0 := by
            rw [List.countP_eq_zero]
            intro cs hcs2 hPcs
            rw [Bool.and_eq_true, decide_eq_true_eq, decide_eq_true_eq] at hPcs
            exact erc1 c.2.1 hsn (fun hx => hne hx.symm) rfl cs hcs2
              ⟨hb2.1.trans hPcs.1.symm, hb2.2.trans hPcs.2.symm⟩
          rw [hcs, if_neg hPs] at hzsf
          have hzR : rackCount rest r idx sh = 0 := by
            unfold rackCount
            apply List.sum_eq_zero
            intro x hx
            obtain ⟨n, hn, rfl⟩ := List.mem_map.mp hx
            by_cases hnr : n.rack = r
            · rw [if_pos hnr, List.countP_eq_zero]
              intro cs hcs2 hPcs
              rw [Bool.and_eq_true, decide_eq_true_eq, decide_eq_true_eq] at hPcs
              exact erc1 n (hperm.mem_iff.mpr
                  (List.mem_cons_of_mem _ (List.mem_cons_of_mem _ hn)))
                (hrest n hn).1 (hnr.trans hr2.symm) cs hcs2
                ⟨hb2.1.trans hPcs.1.symm, hb2.2.trans hPcs.2.symm⟩
            · rw [if_neg hnr]
          rw [if_pos hr1] at hO ⊢
          rw [if_pos hr2] at hO ⊢
          rw [if_pos hPb] at hO ⊢
          rw [if_neg hPs] at hO ⊢
          omega
        ·
          rw [if_pos hr1] at hO ⊢
          rw [if_neg hr2] at hO ⊢
          rw [if_pos hPb] at hO
          rw [if_neg hPs]
          omega
      · by_cases hr2 : c.2.1.rack = r
        ·
          have hb2 := hPb
          rw [Bool.and_eq_true, decide_eq_true_eq, decide_eq_true_eq] at hb2
          have hzsf : c.2.1.shards.countP (fun s => decide (s.index = idx) && decide (s.shard = sh)) = 0 := by
            rw [List.countP_eq_zero]
            intro cs hcs2 hPcs
            rw [Bool.and_eq_true, decide_eq_true_eq, decide_eq_true_eq] at hPcs
            exact erc1 c.2.1 hsn (fun hx => hne hx.symm) rfl cs hcs2
              ⟨hb2.1.trans hPcs.1.symm, hb2.2.trans hPcs.2.symm⟩
          rw [hcs, if_neg hPs] at hzsf
          have hzR : rackCount rest r idx sh = 0 := by
            unfold rackCount
            apply List.sum_eq_zero
            intro x hx
            obtain ⟨n, hn, rfl⟩ := List.mem_map.mp hx
            by_cases hnr : n.rack = r
            · rw [if_pos hnr, List.countP_eq_zero]
              intro cs hcs2 hPcs
              rw [Bool.and_eq_true, decide_eq_true_eq, decide_eq_true_eq] at hPcs
              exact erc1 n (hperm.mem_iff.mpr
                  (List.mem_cons_of_mem _ (List.mem_cons_of_mem _ hn)))
                (hrest n hn).1 (hnr.trans hr2.symm) cs hcs2
                ⟨hb2.1.trans hPcs.1.symm, hb2.2.trans hPcs.2.symm⟩
            · rw [if_neg hnr]
          rw [if_neg hr1] at hO ⊢
          rw [if_pos hr2] at hO ⊢
          rw [if_pos hPb]
          rw [if_neg hPs] at hO
          omega
        ·
          rw [if_neg hr1] at hO ⊢
          rw [if_neg hr2] at hO ⊢
          omega
  · by_cases hPs : (decide (c.2.2.index = idx) && decide (c.2.2.shard = sh)) = true
    ·
      by_cases hr1 : c.1.1.rack = r
      · by_cases hr2 : c.2.1.rack = r
        ·
          have hs2 := hPs
          rw [Bool.and_eq_true, decide_eq_true_eq, decide_eq_true_eq] at hs2
          have hzbf : c.1.1.shards.countP (fun s => decide (s.index = idx) && decide (s.shard = sh)) = 0 := by
            rw [List.countP_eq_zero]
            intro cs hcs2 hPcs
            rw [Bool.and_eq_true, decide_eq_true_eq, decide_eq_true_eq] at hPcs
            exact erc2 c.1.1 hbn hne rfl cs hcs2
              ⟨hs2.1.trans hPcs.1.symm, hs2.2.trans hPcs.2.symm⟩
          rw [hcb, if_neg hPb] at hzbf
          have hzR : rackCount rest r idx sh = 0 := by
            unfold rackCount
            apply List.sum_eq_zero
            intro x hx
            obtain ⟨n, hn, rfl⟩ := List.mem_map.mp hx
            by_cases hnr : n.rack = r
            · rw [if_pos hnr, List.countP_eq_zero]
              intro cs hcs2 hPcs
              rw [Bool.and_eq_true, decide_eq_true_eq, decide_eq_true_eq] at hPcs
              exact erc2 n (hperm.mem_iff.mpr
                  (List.mem_cons_of_mem _ (List.mem_cons_of_mem _ hn)))
                (hrest n hn).2 (hnr.trans hr1.symm) cs hcs2
                ⟨hs2.1.trans hPcs.1.symm, hs2.2.trans hPcs.2.symm⟩
            · rw [if_neg hnr]
          rw [if_pos hr1] at hO ⊢
          rw [if_pos hr2] at hO ⊢
          rw [if_neg hPb] at hO ⊢
          rw [if_pos hPs] at hO ⊢
          omega
        ·
          have hs2 := hPs
          rw [Bool.and_eq_true, decide_eq_true_eq, decide_eq_true_eq] at hs2
          have hzbf : c.1.1.shards.countP (fun s => decide (s.index = idx) && decide (s.shard = sh)) = 0 := by
            rw [List.countP_eq_zero]
            intro cs hcs2 hPcs
            rw [Bool.and_eq_true, decide_eq_true_eq, decide_eq_true_eq] at hPcs
            exact erc2 c.1.1 hbn hne rfl cs hcs2
              ⟨hs2.1.trans hPcs.1.symm, hs2.2.trans hPcs.2.symm⟩
          rw [hcb, if_neg hPb] at hzbf
          have hzR : rackCount rest r idx sh = 0 := by
            unfold rackCount
            apply List.sum_eq_zero
            intro x hx
            obtain ⟨n, hn, rfl⟩ := List.mem_map.mp hx
            by_cases hnr : n.rack = r
            · rw [if_pos hnr, List.countP_eq_zero]
              intro cs hcs2 hPcs
              rw [Bool.and_eq_true, decide_eq_true_eq, decide_eq_true_eq] at hPcs
              exact erc2 n (hperm.mem_iff.mpr
                  (List.mem_cons_of_mem _ (List.mem_cons_of_mem _ hn)))
                (hrest n hn).2 (hnr.trans hr1.symm) cs hcs2
                ⟨hs2.1.trans hPcs.1.symm, hs2.2.trans hPcs.2.symm⟩
            · rw [if_neg hnr]
          rw [if_pos hr1] at hO ⊢
          rw [if_neg hr2] at hO ⊢
          rw [if_neg hPb] at hO
          rw [if_pos hPs]
          omega
      · by_cases hr2 : c.2.1.rack = r
        ·
          rw [if_neg hr1] at hO ⊢
          rw [if_pos hr2] at hO ⊢
          rw [if_neg hPb]
          rw [if_pos hPs] at hO
          omega
        ·
          rw [if_neg hr1] at hO ⊢
          rw [if_neg hr2] at hO ⊢
          omega
    ·
      by_cases hr1 : c.1.1.rack = r
      · by_cases hr2 : c.2.1.rack = r
        ·
          rw [if_pos hr1] at hO ⊢
          rw [if_pos hr2] at hO ⊢
          rw [if_neg hPb] at hO ⊢
          rw [if_neg hPs] at hO ⊢
          omega
        ·
          rw [if_pos hr1] at hO ⊢
          rw [if_neg hr2] at hO ⊢
          rw [if_neg hPb] at hO
          rw [if_neg hPs]
          omega
      · by_cases hr2 : c.2.1.rack = r
        ·
          rw [if_neg hr1] at hO ⊢
          rw [if_pos hr2] at hO ⊢
          rw [if_neg hPb]
          rw [if_neg hPs] at hO
          omega
        ·
          rw [if_neg hr1] at hO ⊢
          rw [if_neg hr2] at hO ⊢
          omega

end ESRebalance

/-! Conservation machinery: the exchange only moves shards between nodes. -/

namespace ESRebalance

theorem allShards_perm {l l' : List NodeInfo} (h : l.Perm l') :
    allShards l = allShards l' := by
  unfold allShards
  exact (h.map _).sum_eq

theorem allShards_resort (l : List NodeInfo) :
    allShards (l.map NodeInfo.resort) = allShards l := by
  unfold allShards
  rw [List.map_map]
  congr 1
  apply List.map_congr_left
  intro n hn
  show ((sortShardsDesc n.shards : List Shard) : Multiset Shard) = (n.shards : Multiset Shard)
  exact Multiset.coe_eq_coe.mpr (List.perm_insertionSort _ _)

theorem allShards_cons (a : NodeInfo) (l : List NodeInfo) :
    allShards (a :: l) = (a.shards : Multiset Shard) + allShards l := by
  unfold allShards
  rw [List.map_cons, List.sum_cons]

theorem nodeIdentities_perm {l l' : List NodeInfo} (h : l.Perm l') :
    nodeIdentities l = nodeIdentities l' :=
  Multiset.coe_eq_coe.mpr (h.map _)

theorem usedInv_sortNodes (p : Plan) : usedInv (Plan.sortNodes p) := by
  intro n hn
  have hn2 : n ∈ p.nodes_by_size.map NodeInfo.resort :=
    (List.perm_insertionSort _ _).subset hn
  obtain ⟨m, hm, rfl⟩ := List.mem_map.mp hn2
  show ((sortShardsDesc m.shards).map Shard.store).sum =
    ((sortShardsDesc m.shards).map Shard.store).sum
  rfl

theorem totalUsed_eq_store_sum (l : List NodeInfo)
    (hU : ∀ n ∈ l, n.used = (n.shards.map Shard.store).sum) :
    totalUsed l = ((allShards l).map Shard.store).sum := by
  induction l with
  | nil => rfl
  | cons a t ih =>
    have ha := hU a (List.mem_cons_self a t)
    have ht := ih (fun n hn => hU n (List.mem_cons_of_mem a hn))
    unfold totalUsed at ht ⊢
    rw [List.map_cons, List.sum_cons, allShards_cons, Multiset.map_add, Multiset.sum_add,
      ht, ha, Multiset.map_coe, Multiset.sum_coe]

/-- C9: a plan_step call conserves the fleet: the multiset of shards over all
nodes is unchanged (the two exchanged shards only change owner), the multiset
of immutable node attributes (name, ip, rack, capacity) is unchanged, every
used field equals the sum of the member shard stores afterwards, and hence
the total used bytes are invariant. -/
theorem c9_conservation (p p' : Plan) (r : Bool) (hND : namesNodup p) (hU : usedInv p)
    (h : p.plan_step = some (r, p')) :
    allShards p'.nodes_by_size = allShards p.nodes_by_size ∧
    nodeIdentities p'.nodes_by_size = nodeIdentities p.nodes_by_size ∧
    usedInv p' ∧
    totalUsed p'.nodes_by_size = totalUsed p.nodes_by_size := by
  cases r with
  | false =>
    have hq : p' = p := plan_step_false_elim h
    subst hq
    exact ⟨rfl, rfl, hU, rfl⟩
  | true =>
    obtain ⟨cv, c, hv, hmem, hacc, hp'⟩ := plan_step_true_elim h
    obtain ⟨hbig, hsmall⟩ := candidatePairs_mem hmem
    obtain ⟨hbn, hbs, -⟩ := find_big_mem (p := p) (n := c.1.1) (s := c.1.2) hbig
    obtain ⟨hsn, hss, -⟩ := find_small_mem (p := p) (n := c.2.1) (s := c.2.2) hsmall
    have hne : c.1.1.name ≠ c.2.1.name := (can_exchange_elim (acceptPair_elim hacc).2.1).1
    obtain ⟨rest, hperm, hrest⟩ := nodes_split hND hbn hsn hne
    have hsnbn : ¬ (c.2.1.name = c.1.1.name) := fun hx => hne hx.symm
    have e3 : Plan.exchangeNodes (c.1.1 :: c.2.1 :: rest) c.1.1 c.1.2 c.2.1 c.2.2
        = { c.1.1 with shards := c.1.1.shards.erase c.1.2 ++ [c.2.2] }
          :: { c.2.1 with shards := c.2.1.shards.erase c.2.2 ++ [c.1.2] } :: rest := by
      unfold Plan.exchangeNodes
      rw [List.map_cons, List.map_cons, if_pos rfl, if_neg hsnbn, if_pos rfl,
        map_id_of_eq (fun n hn => by rw [if_neg (hrest n hn).1, if_neg (hrest n hn).2])]
    have hperm2 : (p.plan_exchange c.1.1 c.1.2 c.2.1 c.2.2).nodes_by_size.Perm
        ((Plan.exchangeNodes p.nodes_by_size c.1.1 c.1.2 c.2.1 c.2.2).map NodeInfo.resort) :=
      List.perm_insertionSort _ _
    have hupd : (Plan.exchangeNodes p.nodes_by_size c.1.1 c.1.2 c.2.1 c.2.2).Perm
        ({ c.1.1 with shards := c.1.1.shards.erase c.1.2 ++ [c.2.2] }
          :: { c.2.1 with shards := c.2.1.shards.erase c.2.2 ++ [c.1.2] } :: rest) := by
      rw [← e3]
      unfold Plan.exchangeNodes
      exact hperm.map _
    -- shard conservation
    have hall : allShards (p.plan_exchange c.1.1 c.1.2 c.2.1 c.2.2).nodes_by_size
        = allShards p.nodes_by_size := by
      rw [allShards_perm hperm2, allShards_resort, allShards_perm hupd,
        allShards_perm hperm, allShards_cons, allShards_cons, allShards_cons, allShards_cons]
      show ((c.1.1.shards.erase c.1.2 ++ [c.2.2] : List Shard) : Multiset Shard)
          + (((c.2.1.shards.erase c.2.2 ++ [c.1.2] : List Shard) : Multiset Shard)
            + allShards rest) = _
      rw [← Multiset.coe_add, ← Multiset.coe_add]
      have hb : (c.1.1.shards : Multiset Shard)
          = ↑(c.1.1.shards.erase c.1.2) + ↑[c.1.2] := by
        rw [Multiset.coe_add, Multiset.coe_eq_coe]
        exact (List.perm_cons_erase hbs).trans (List.perm_append_singleton _ _).symm
      have hs : (c.2.1.shards : Multiset Shard)
          = ↑(c.2.1.shards.erase c.2.2) + ↑[c.2.2] := by
        rw [Multiset.coe_add, Multiset.coe_eq_coe]
        exact (List.perm_cons_erase hss).trans (List.perm_append_singleton _ _).symm
      rw [hb, hs]
      abel
    -- node identity conservation
    have hlist : ((Plan.exchangeNodes p.nodes_by_size c.1.1 c.1.2 c.2.1 c.2.2).map
          NodeInfo.resort).map (fun n => (n.name, n.ip, n.rack, n.capacity)) =
        p.nodes_by_size.map (fun n => (n.name, n.ip, n.rack, n.capacity)) := by
      unfold Plan.exchangeNodes
      rw [List.map_map, List.map_map]
      apply List.map_congr_left
      intro n hn
      simp only [Function.comp_apply]
      by_cases h1 : n.name = c.1.1.name
      · rw [if_pos h1]
        rfl
      · rw [if_neg h1]
        by_cases h2 : n.name = c.2.1.name
        · rw [if_pos h2]
          rfl
        · rw [if_neg h2]
          rfl
    have hid : nodeIdentities (p.plan_exchange c.1.1 c.1.2 c.2.1 c.2.2).nodes_by_size
        = nodeIdentities p.nodes_by_size := by
      rw [nodeIdentities_perm hperm2]
      unfold nodeIdentities
      rw [hlist]
    -- used invariant afterwards
    have hui : usedInv (p.plan_exchange c.1.1 c.1.2 c.2.1 c.2.2) := usedInv_sortNodes _
    -- total used conservation
    have hU' : usedInv (p.plan_exchange c.1.1 c.1.2 c.2.1 c.2.2) := hui
    have htot : totalUsed (p.plan_exchange c.1.1 c.1.2 c.2.1 c.2.2).nodes_by_size
        = totalUsed p.nodes_by_size := by
      rw [totalUsed_eq_store_sum _ hU', totalUsed_eq_store_sum _ hU, hall]
    subst hp'
    exact ⟨hall, hid, hui, htot⟩

end ESRebalance

/-! Structure of the big-candidate scan. -/

namespace ESRebalance

theorem takeWhile_eq_take_findIdx_not {α : Type} (l : List α) (q : α → Bool) :
    l.takeWhile q = l.take (l.findIdx (fun a => !(q a))) := by
  induction l with
  | nil => rfl
  | cons a t ih =>
    by_cases h : q a = true
    · have hn : (!(q a)) = false := by rw [h]; rfl
      rw [List.takeWhile_cons_of_pos h, List.findIdx_cons, hn, Bool.cond_false,
        List.take_succ_cons, ih]
    · have hq : q a = false := Bool.not_eq_true _ ▸ h
      have hn : (!(q a)) = true := by rw [hq]; rfl
      rw [List.takeWhile_cons_of_neg h, List.findIdx_cons, hn, Bool.cond_true, List.take_zero]

theorem pairwise_trivial {α : Type} {R : α → α → Prop} (l : List α) (h : ∀ a b, R a b) :
    l.Pairwise R := by
  induction l with
  | nil => exact List.Pairwise.nil
  | cons a t ih => exact List.Pairwise.cons (fun b hb => h a b) ih

theorem find_big_sorted_aux (p : Plan) (l : List NodeInfo)
    (hl : l.Pairwise (fun a b => b.fraction_used ≤ a.fraction_used)) :
    (l.flatMap (fun n => (n.shards.filter p.shardEligible).map (fun s => (n, s)))).Pairwise
      (fun x y => y.1.fraction_used ≤ x.1.fraction_used) := by
  induction l with
  | nil => exact List.Pairwise.nil
  | cons a t ih =>
    rw [List.flatMap_cons, List.pairwise_append]
    rw [List.pairwise_cons] at hl
    refine ⟨?_, ih hl.2, ?_⟩
    · rw [List.pairwise_map]
      exact pairwise_trivial _ (fun s t => le_refl _)
    · intro x hx y hy
      obtain ⟨s, hs, rfl⟩ := List.mem_map.mp hx
      obtain ⟨b, hb, hyb⟩ := List.mem_flatMap.mp hy
      obtain ⟨t2, ht2, rfl⟩ := List.mem_map.mp hyb
      exact hl.1 b hb

/-- C7: the big-candidate scan visits nodes in the sorted (descending usage)
order and cuts the whole scan at the first node whose usage fraction is within
node_fraction_threshold of the least loaded node; the yielded node fractions
are therefore non-increasing, every yielded shard is movable and not in
moved_shards, and within each node the eligible shards come largest first. -/
theorem c7_big_scan (p : Plan) (last : NodeInfo)
    (hlast : p.nodes_by_size.getLast? = some last)
    (hsorted : p.nodes_by_size.Pairwise (fun a b => b.fraction_used ≤ a.fraction_used))
    (hshards : ∀ n ∈ p.nodes_by_size,
      n.shards.Pairwise (fun a b => b.store ≤ a.store)) :
    p.find_big_shards =
      (p.nodes_by_size.take (p.nodes_by_size.findIdx
          (fun n => decide (|last.fraction_used - n.fraction_used| <
            p.node_fraction_threshold)))).flatMap
        (fun n => (n.shards.filter p.shardEligible).map (fun s => (n, s))) ∧
    p.find_big_shards.Pairwise (fun x y => y.1.fraction_used ≤ x.1.fraction_used) ∧
    (∀ x ∈ p.find_big_shards, x.2.can_move = true ∧
      (x.2.index, x.2.shard) ∉ p.moved_shards) ∧
    (∀ n ∈ p.nodes_by_size,
      (n.shards.filter p.shardEligible).Pairwise (fun a b => b.store ≤ a.store)) := by
  refine ⟨?_, ?_, ?_, ?_⟩
  · unfold Plan.find_big_shards
    split
    case _ heq => rw [heq] at hlast; exact absurd hlast (by simp)
    case _ last2 heq =>
      rw [heq] at hlast
      obtain rfl : last2 = last := Option.some.inj hlast
      rw [takeWhile_eq_take_findIdx_not]
      simp only [Bool.not_not]
  · unfold Plan.find_big_shards
    split
    case _ heq => exact List.Pairwise.nil
    case _ last2 heq =>
      exact find_big_sorted_aux p _
        (hsorted.sublist (List.takeWhile_sublist _))
  · intro x hx
    obtain ⟨n, s⟩ := x
    have hf := find_big_mem hx
    have he := shardEligible_elim hf.2.2
    exact ⟨he.2, he.1⟩
  · intro n hn
    exact (hshards n hn).filter _

end ESRebalance

/-! The capacity filter of the committed code versus the spec, and concrete
witnesses for the theorems with hypotheses. -/

namespace ESRebalance

/-- C1: the committed capacity filter is the naive form. At the input below
(node C1: used 100 of capacity 105, outgoing shard of 50, incoming shard of
10) can_exchange_shards rejects the exchange because 100 + 10 > 105, while
the corrected net form of the spec accepts it because 100 - 50 + 10 = 60 fits
easily; the two checkers differ in nothing but the capacity filter. -/
theorem c1_capacity_filter_naive :
    cplan.can_exchange_shards cnode1 cshard1 cnode2 cshard2 = false ∧
    cplan.can_exchange_shards_specform cnode1 cshard1 cnode2 cshard2 = true ∧
    cnode1.capacity < cnode1.used + cshard2.store ∧
    cnode1.used - cshard1.store + cshard2.store ≤ cnode1.capacity := by
  decide

theorem rackSafe_of_occs {nodes : List NodeInfo}
    (h : ∀ o ∈ rackOccs nodes, rackCount nodes o.1 o.2.1 o.2.2 ≤ 1) :
    rackSafe nodes := by
  intro r idx sh
  by_cases hpos : 0 < rackCount nodes r idx sh
  · unfold rackCount at hpos
    have hex : ∃ x ∈ nodes.map (fun n =>
        if n.rack = r then
          n.shards.countP (fun s => decide (s.index = idx) && decide (s.shard = sh))
        else 0), x ≠ 0 := by
      by_contra hall
      push_neg at hall
      rw [List.sum_eq_zero hall] at hpos
      exact lt_irrefl 0 hpos
    obtain ⟨x, hx, hxne⟩ := hex
    obtain ⟨n, hn, rfl⟩ := List.mem_map.mp hx
    by_cases hnr : n.rack = r
    · rw [if_pos hnr] at hxne
      have hcp : 0 < n.shards.countP
          (fun s => decide (s.index = idx) && decide (s.shard = sh)) :=
        Nat.pos_of_ne_zero hxne
      obtain ⟨s, hs, hps⟩ := List.countP_pos_iff.mp hcp
      rw [Bool.and_eq_true, decide_eq_true_eq, decide_eq_true_eq] at hps
      have hocc : ((r, idx, sh) : String × String × Nat) ∈ rackOccs nodes := by
        unfold rackOccs
        rw [List.mem_flatMap]
        exact ⟨n, hn, List.mem_map.mpr ⟨s, hs, by rw [hnr, hps.1, hps.2]⟩⟩
      exact h (r, idx, sh) hocc
    · rw [if_neg hnr] at hxne
      exact absurd rfl hxne
  · omega

/-- Witness: the two-node plan commits its exchange and the variance claim
applies to it. -/
theorem c2_variance_strict_decrease_witness :
    ∃ v v', wplan.percent_used_variance [] [] = some v ∧
      wplanStep.percent_used_variance [] [] = some v' ∧ v' < v :=
  c2_variance_strict_decrease wplan wplanStep (by unfold namesNodup; decide)
    (by unfold usedInv; decide) (by decide)

/-- Witness: the two-node plan is rack safe before its exchange, and the rack
safety claim applies to the committed step. -/
theorem c3_rack_safety_witness : rackSafe wplanStep.nodes_by_size :=
  c3_rack_safety wplan wplanStep (by unfold namesNodup; decide)
    (rackSafe_of_occs (by decide)) (by decide)

/-- Witness: the single-node plan converges at once and stays converged. -/
theorem c4_idempotent_convergence_witness :
    fplan.plan_step = some (false, fplan) ∧
    (fplan = fplan ∧ fplan.plan_step = some (false, fplan) ∧
      ∀ k, Plan.runSteps k fplan = some fplan) :=
  ⟨by decide, c4_idempotent_convergence fplan fplan (by decide)⟩

/-- Witness: the committed step of the two-node plan is the atomic commit the
atomicity claim describes. -/
theorem c5_plan_step_atomic_witness :
    (true = false ∧ wplanStep = wplan) ∨
    (true = true ∧ ∃ bn bs sn ss, (bn, bs) ∈ wplan.find_big_shards ∧
      (sn, ss) ∈ wplan.find_small_shards bn ∧
      wplan.can_exchange_shards bn bs sn ss = true ∧
      wplanStep = wplan.plan_exchange bn bs sn ss ∧
      wplanStep.operations = wplan.operations ++
        [ { index := bs.index, shard := bs.shard, from_node := bn.name, to_node := sn.name },
          { index := ss.index, shard := ss.shard, from_node := sn.name, to_node := bn.name } ] ∧
      wplanStep.moved_shards = wplan.moved_shards ++
        [(bs.index, bs.shard), (ss.index, ss.shard)] ∧
      wplanStep.nodes_by_size =
        sortNodesBySize ((Plan.exchangeNodes wplan.nodes_by_size bn bs sn ss).map
          NodeInfo.resort)) :=
  c5_plan_step_atomic wplan true wplanStep (by decide)

/-- Witness: the identity of the large exchanged shard never reappears in the
candidate scans after the commit. -/
theorem c6_no_double_move_witness :
    (∀ x ∈ wplanStep.find_big_shards,
      (x.2.index, x.2.shard) ≠ (("ia" : String), (0 : Nat))) ∧
    (∀ bn : NodeInfo, ∀ x ∈ wplanStep.find_small_shards bn,
      (x.2.index, x.2.shard) ≠ (("ia" : String), (0 : Nat))) :=
  c6_no_double_move wplan wplanStep wplanStep 0 ("ia", 0) (by decide) (by decide) (by decide)

/-- Witness: the big-candidate scan claim applies to the sorted two-node
plan. -/
theorem c7_big_scan_witness :
    wplan.find_big_shards =
      (wplan.nodes_by_size.take (wplan.nodes_by_size.findIdx
          (fun n => decide (|nodeB.fraction_used - n.fraction_used| <
            wplan.node_fraction_threshold)))).flatMap
        (fun n => (n.shards.filter wplan.shardEligible).map (fun s => (n, s))) ∧
    wplan.find_big_shards.Pairwise (fun x y => y.1.fraction_used ≤ x.1.fraction_used) ∧
    (∀ x ∈ wplan.find_big_shards, x.2.can_move = true ∧
      (x.2.index, x.2.shard) ∉ wplan.moved_shards) ∧
    (∀ n ∈ wplan.nodes_by_size,
      (n.shards.filter wplan.shardEligible).Pairwise (fun a b => b.store ≤ a.store)) :=
  c7_big_scan wplan nodeB (by decide) (by decide) (by decide)

/-- Witness: the variance of wplan equals that of the plan with different
operations and moved_shards but the same node list. -/
theorem c8_variance_pure_witness :
    wplan.percent_used_variance [] [] = oplan.percent_used_variance [] [] :=
  c8_variance_pure wplan oplan [] [] rfl

/-- Witness: the conservation claim applies to the committed step of the
two-node plan. -/
theorem c9_conservation_witness :
    allShards wplanStep.nodes_by_size = allShards wplan.nodes_by_size ∧
    nodeIdentities wplanStep.nodes_by_size = nodeIdentities wplan.nodes_by_size ∧
    usedInv wplanStep ∧
    totalUsed wplanStep.nodes_by_size = totalUsed wplan.nodes_by_size :=
  c9_conservation wplan wplanStep true (by unfold namesNodup; decide)
    (by unfold usedInv; decide) (by decide)

end ESRebalance
